import Mathlib

/-!
# Verification of the ATS resume analyzer (`main.py`)

A shallow embedding of the analyzer's pure pipeline:

* Python `float` arithmetic (IEEE-754 binary64, round to nearest, ties to
  even) is modelled exactly: every float in this program is a nonnegative
  dyadic rational in the normal range, represented as a mantissa/exponent
  pair `FP`, and `fpDivRound` performs the correct-rounding step after
  each `*`, `/`, `+`.  Negative values, subnormals and overflow are not
  modelled; no value of this program reaches them (all operands are
  counts, set sizes and the positive literals `0.7`, `0.3`, `100`).
* Python strings are Lean `String`s; `in` (substring), `str.title()`,
  `str.lower()`, `str.strip()`, `str.split()` are modelled on the
  character lists (the vocabularies are ASCII, where Lean's `Char` case
  functions agree with Python's).
* Python sets of strings are modelled as duplicate-free lists in scan
  order: `list(set(...))` and iteration over a set difference use an
  unspecified hash order in Python, so no verified property may and does
  depend on element order.
-/

namespace ATS

set_option maxRecDepth 8000

/-! ## IEEE-754 binary64 model -/

/-- `⌊log₂ n⌋` via structural recursion on a fuel argument (so that the
kernel can evaluate it; `n` itself is always enough fuel). -/
def log2Aux : Nat → Nat → Nat
  | 0, _ => 0
  | fuel + 1, n => if n ≥ 2 then log2Aux fuel (n / 2) + 1 else 0

/-- `⌊log₂ n⌋` (0 for `n = 0`). -/
def natLog2 (n : ℕ) : ℕ := log2Aux n n

/-- Round the rational `n / d` to the nearest natural number, ties to
even. -/
def roundEvenDiv (n d : ℕ) : ℕ :=
  if 2 * (n % d) < d then n / d
  else if d < 2 * (n % d) then n / d + 1
  else if (n / d) % 2 = 0 then n / d else n / d + 1

/-- A nonnegative binary64 value, as the dyadic rational
`num / 2 ^ exp`. -/
structure FP where
  num : ℕ
  exp : ℕ
deriving DecidableEq

/-- The rational value of an `FP`. -/
def FP.val (x : FP) : ℚ := (x.num : ℚ) / 2 ^ x.exp

/-- `⌊log₂ (a / b)⌋` for positive naturals `a`, `b`: `natLog2 a - natLog2 b`,
corrected down by one when the quotient falls below `2 ^ (natLog2 a - natLog2 b)`. -/
def fpExp (a b : ℕ) : ℤ :=
  (natLog2 a : ℤ) - natLog2 b
    - (if a * 2 ^ natLog2 b < b * 2 ^ natLog2 a then 1 else 0)

/-- Correct rounding of the nonnegative rational `a / b` to binary64
(round to nearest, ties to even), in the normal range: the value is
scaled by a power of two into `[2^52, 2^53)`, rounded to an integer
significand, and scaled back. -/
def fpDivRound (a b : ℕ) : FP :=
  if a = 0 ∨ b = 0 then ⟨0, 0⟩
  else if 0 ≤ 52 - fpExp a b then
    ⟨roundEvenDiv (a * 2 ^ (52 - fpExp a b).toNat) b, (52 - fpExp a b).toNat⟩
  else
    ⟨roundEvenDiv a (b * 2 ^ (fpExp a b - 52).toNat) * 2 ^ (fpExp a b - 52).toNat, 0⟩

/-- Python `float` multiplication. -/
def fmul (x y : FP) : FP := fpDivRound (x.num * y.num) (2 ^ (x.exp + y.exp))

/-- Python `float` addition. -/
def fadd (x y : FP) : FP :=
  fpDivRound (x.num * 2 ^ y.exp + y.num * 2 ^ x.exp) (2 ^ (x.exp + y.exp))

/-- Python `float` true division (the program only divides by nonzero
set sizes). -/
def fdiv (x y : FP) : FP := fpDivRound (x.num * 2 ^ y.exp) (y.num * 2 ^ x.exp)

/-- Python `int -> float` conversion (exact below `2^53`, rounded
above). -/
def floatOfNat (n : ℕ) : FP := fpDivRound n 1

/-- Python `int()` on a nonnegative float: truncation toward zero, which
is the floor here. -/
def pyTrunc (x : FP) : ℕ := x.num / 2 ^ x.exp

/-- The `float` literal `0.7`, exactly. -/
def c07 : FP := ⟨6305039478318694, 53⟩

/-- The `float` literal `0.3`, exactly. -/
def c03 : FP := ⟨5404319552844595, 54⟩

/-- Specification-side counterpart of `roundEvenDiv` on rationals: round
to the nearest integer, ties to even.  Used only in lemmas. -/
def roundIntQ (x : ℚ) : ℤ :=
  if x - ⌊x⌋ < 1/2 then ⌊x⌋
  else if 1/2 < x - ⌊x⌋ then ⌊x⌋ + 1
  else if ⌊x⌋ % 2 = 0 then ⌊x⌋ else ⌊x⌋ + 1

/-- The relative-error bound of one binary64 rounding step. -/
def eps : ℚ := 1 / 2 ^ 53

/-- `int((m / n) * 100)` as Python computes it in `compare_resume_jd`
(float division, float multiplication, truncation). -/
def percentOf (m n : ℕ) : ℕ :=
  pyTrunc (fmul (fdiv (floatOfNat m) (floatOfNat n)) (floatOfNat 100))

/-- `int((skill_match * 0.7) + (keyword_coverage * 0.3))` as Python
computes it in `compare_resume_jd`. -/
def overallScoreOf (sm kc : ℕ) : ℕ :=
  pyTrunc (fadd (fmul (floatOfNat sm) c07) (fmul (floatOfNat kc) c03))

/-! ## Python string primitives -/

/-- Python `pat in hay` on character lists: contiguous sublist test. -/
def isSubstrList (pat : List Char) : List Char → Bool
  | [] => pat.isEmpty
  | c :: rest => pat.isPrefixOf (c :: rest) || isSubstrList pat rest

/-- Python `pat in hay` for strings. -/
def pyIn (pat hay : String) : Bool := isSubstrList pat.data hay.data

/-- Python `str.lower()` (ASCII). -/
def pyLower (s : String) : String := ⟨s.data.map Char.toLower⟩

/-- Helper for `pyTitle`: the boolean records whether the previous
character was alphabetic. -/
def titleAux : Bool → List Char → List Char
  | _, [] => []
  | prev, c :: cs =>
    (if c.isAlpha then (if prev then c.toLower else c.toUpper) else c)
      :: titleAux c.isAlpha cs

/-- Python `str.title()` (ASCII): uppercase every letter that follows a
non-letter, lowercase the rest. -/
def pyTitle (s : String) : String := ⟨titleAux false s.data⟩

/-- Python `str.strip()`: drop leading and trailing whitespace. -/
def pyStrip (s : String) : String :=
  ⟨((s.data.dropWhile Char.isWhitespace).reverse.dropWhile Char.isWhitespace).reverse⟩

/-- Split a character list at every character satisfying `p` (the
separators are consumed; `n` separators yield `n + 1` pieces). -/
def splitOnPred (p : Char → Bool) : List Char → List (List Char)
  | [] => [[]]
  | c :: cs =>
    match splitOnPred p cs with
    | [] => [[]]
    | h :: t => if p c then [] :: h :: t else (c :: h) :: t

/-- Python `text.split('\n')`. -/
def pyLines (s : String) : List String :=
  (splitOnPred (fun c => c == '\n') s.data).map fun l => ⟨l⟩

/-- Python `str.split()` with no separator: split on whitespace runs,
discarding empty pieces. -/
def pySplitWs (s : String) : List String :=
  ((splitOnPred Char.isWhitespace s.data).filter (fun t => !t.isEmpty)).map fun l => ⟨l⟩

/-- Python `str.endswith(suffix)`. -/
def pyEndsWith (s suffix : String) : Bool := suffix.data.isSuffixOf s.data

/-! ## Field extraction (`extract_name`, `extract_skills`, `extract_keywords`) -/

/-- The condition `extract_name` tests on each of the first five lines:
after stripping, the line is non-empty, has at most 4 whitespace-separated
tokens, contains no digit and no `@`. -/
def nameQualifies (line : String) : Bool :=
  let s := pyStrip line
  s.data.length > 0 && (pySplitWs s).length ≤ 4
    && !(s.data.any Char.isDigit) && !(s.data.contains '@')

/-- The loop body of `extract_name`: return the first qualifying line,
stripped, else the sentinel. -/
def findName : List String → String
  | [] => "Name not found"
  | line :: rest => if nameQualifies line then pyStrip line else findName rest

/-- `extract_name` from `main.py`: scan the first five lines. -/
def extract_name (text : String) : String :=
  findName ((pyLines text).take 5)

/-- The fixed skill vocabulary (`skill_keywords` in `extract_skills`). -/
def skill_keywords : List String :=
  ["python", "java", "javascript", "react", "angular", "vue", "nodejs",
   "html", "css", "sql", "mongodb", "postgresql", "mysql", "docker",
   "kubernetes", "aws", "azure", "git", "linux", "spring", "django",
   "flask", "fastapi", "rest api", "api", "microservices", "agile",
   "machine learning", "ai", "data science", "pandas", "numpy",
   "tensorflow", "pytorch", "scikit-learn", "excel", "powerbi",
   "tableau", "spark", "hadoop", "scala", "r", "matlab", "c++", "c#",
   "php", "ruby", "go", "rust", "swift", "kotlin", "flutter", "react native"]

/-- `extract_skills` from `main.py`: title-cased vocabulary entries whose
lowercase form is a substring of the lowercased text.  The source wraps
the result in `list(set(...))`; the scan list is already duplicate-free
(proved below), so that wrapper only permutes it in an unspecified hash
order, which we do not model — we keep the scan order. -/
def extract_skills (text : String) : List String :=
  (skill_keywords.filter (fun sk => pyIn sk (pyLower text))).map pyTitle

/-- The fixed keyword vocabulary (`keywords` in `extract_keywords`). -/
def keyword_vocab : List String :=
  ["experience", "develop", "design", "implement", "manage", "lead",
   "create", "build", "maintain", "optimize", "analyze", "collaborate",
   "teamwork", "leadership", "communication", "problem solving",
   "project management", "agile", "scrum", "devops", "ci/cd"]

/-- `extract_keywords` from `main.py`: same mechanism as `extract_skills`
over the keyword vocabulary. -/
def extract_keywords (text : String) : List String :=
  (keyword_vocab.filter (fun kw => pyIn kw (pyLower text))).map pyTitle

/-! ## Text-extraction dispatch (`parse_resume`, `parse_job_description`)

The extractors themselves perform file IO; their outputs are passed in as
parameters.  What is modelled is the extension dispatch. -/

/-- The text `parse_resume` works on, as a function of the file path and
of what the PDF/DOCX extractors would return for it. -/
def parse_resume_text (path pdfText docxText : String) : String :=
  if pyEndsWith (pyLower path) ".pdf" then pdfText
  else if pyEndsWith (pyLower path) ".docx" then docxText
  else "Unsupported file format"

/-- The text `parse_job_description` works on; job descriptions also
accept `.txt`. -/
def parse_jd_text (path pdfText docxText txtText : String) : String :=
  if pyEndsWith (pyLower path) ".pdf" then pdfText
  else if pyEndsWith (pyLower path) ".docx" then docxText
  else if pyEndsWith (pyLower path) ".txt" then txtText
  else "Unsupported file format"

/-! ## Scoring (`compare_resume_jd`, `generate_suggestions`) -/

/-- The fields of the resume dict used by `compare_resume_jd`. -/
structure ResumeData where
  text : String
  skills : List String

/-- The fields of the job-description dict used by `compare_resume_jd`. -/
structure JdData where
  text : String
  required_skills : List String
  keywords : List String

/-- The scorecard returned by `compare_resume_jd`.  The scores are Python
ints, nonnegative by construction, so carried as `ℕ`. -/
structure CompareResult where
  overall_score : ℕ
  skill_match : ℕ
  keyword_coverage : ℕ
  suggestions : List String

/-- The four static tips appended unconditionally in
`generate_suggestions`. -/
def staticTips : List String :=
  ["Use action verbs like \x27developed\x27, \x27implemented\x27, \x27managed\x27",
   "Include quantifiable achievements with numbers and percentages",
   "Ensure your resume is ATS-friendly with simple formatting",
   "Add a skills section with relevant technical skills"]

/-- Join a list of strings with a separator (Python `', '.join`). -/
def joinSep (sep : String) : List String → String
  | [] => ""
  | [x] => x
  | x :: y :: xs => x ++ sep ++ joinSep sep (y :: xs)

/-- The conditional part of `generate_suggestions`: the four rules, each
appending zero or one string.  Python receives two sets and iterates
`jd_skills - resume_skills` in unspecified hash order; the sets are
modelled as duplicate-free lists and the difference is taken in scan
order.  No verified property depends on the content of that one
string. -/
def genConds (skill_match keyword_coverage : ℕ)
    (resume_skills jd_skills : List String) : List String :=
  (if skill_match < 70 then
    (if ((jd_skills.filter (fun s => !resume_skills.contains s)).take 3).isEmpty then []
     else ["Add these missing skills: "
        ++ joinSep ", " ((jd_skills.filter (fun s => !resume_skills.contains s)).take 3)])
   else [])
  ++ (if keyword_coverage < 60 then
      ["Include more keywords from the job description"] else [])
  ++ (if skill_match < 50 then
      ["Focus on highlighting relevant technical skills"] else [])
  ++ (if keyword_coverage < 50 then
      ["Use more industry-specific terminology"] else [])

/-- `generate_suggestions` from `main.py`: the conditional suggestions,
then the four static tips, truncated to the first six. -/
def generate_suggestions (skill_match keyword_coverage : ℕ)
    (resume_skills jd_skills : List String) : List String :=
  (genConds skill_match keyword_coverage resume_skills jd_skills ++ staticTips).take 6

/-- `compare_resume_jd` from `main.py`.  The three Python sets built at
the top are duplicate-free lists here (`dedup` keeps the first
occurrence). -/
def compare_resume_jd (resume : ResumeData) (jd : JdData) : CompareResult :=
  let resume_skills := (resume.skills.map pyLower).dedup
  let jd_skills := (jd.required_skills.map pyLower).dedup
  let jd_keywords := (jd.keywords.map pyLower).dedup
  let skill_match : ℕ :=
    if jd_skills.isEmpty then 100
    else percentOf ((resume_skills.filter (fun s => jd_skills.contains s)).length)
      jd_skills.length
  let resume_text_lower := pyLower resume.text
  let keyword_matches := (jd_keywords.filter (fun kw => pyIn kw resume_text_lower)).length
  let keyword_coverage : ℕ :=
    if jd_keywords.isEmpty then 100
    else percentOf keyword_matches jd_keywords.length
  { overall_score := overallScoreOf skill_match keyword_coverage
    skill_match := skill_match
    keyword_coverage := keyword_coverage
    suggestions :=
      generate_suggestions skill_match keyword_coverage resume_skills jd_skills }

/-! ## Request handler (`analyze_resume`) temporary-file lifecycle

The filesystem is a list of paths.  The handler writes the resume file,
then the job-description file, runs the parse/compare pipeline, and on
success removes both files.  The two booleans abstract whether the
job-description save and the pipeline raise an exception (both can: e.g.
`open` fails when the uploaded filename contains a subdirectory).  The
returned boolean is `true` on the success (HTTP 200) path and `false` on
the exception (HTTP 500) path. -/
def analyze_model (fs : List String) (resumePath jdPath : String)
    (saveJdOk pipelineOk : Bool) : List String × Bool :=
  let fs1 := resumePath :: fs
  if !saveJdOk then (fs1, false)
  else
    let fs2 := jdPath :: fs1
    if !pipelineOk then (fs2, false)
    else ((fs2.erase resumePath).erase jdPath, true)

/-- Concrete resume input for which the scorer produces
`skill_match = 6` and `keyword_coverage = 6`: two of the thirty-three
required skills are present, and exactly one of the sixteen job keywords
occurs in the resume text. -/
def c1Resume : ResumeData := ⟨"q0", ["a01", "a02"]⟩

/-- Concrete job-description input matching `c1Resume`: thirty-three
distinct required skills and sixteen distinct keywords. -/
def c1Jd : JdData :=
  ⟨"",
   ["a01", "a02", "a03", "a04", "a05", "a06", "a07", "a08", "a09", "a10",
    "a11", "a12", "a13", "a14", "a15", "a16", "a17", "a18", "a19", "a20",
    "a21", "a22", "a23", "a24", "a25", "a26", "a27", "a28", "a29", "a30",
    "a31", "a32", "a33"],
   ["q0", "q1", "q2", "q3", "q4", "q5", "q6", "q7", "q8", "q9", "q10",
    "q11", "q12", "q13", "q14", "q15"]⟩

/-! ## Lemmas: the base-2 logarithm -/

theorem log2Aux_spec : ∀ fuel n, 1 ≤ n → n ≤ fuel →
    2 ^ log2Aux fuel n ≤ n ∧ n < 2 ^ (log2Aux fuel n + 1) := by
  intro fuel
  induction fuel with
  | zero => intro n h1 h2; omega
  | succ f ih =>
    intro n h1 h2
    rw [log2Aux]
    by_cases h : n ≥ 2
    · simp only [if_pos h]
      obtain ⟨l, u⟩ := ih (n / 2) (by omega) (by omega)
      have e1 : 2 ^ (log2Aux f (n / 2) + 1) = 2 * 2 ^ log2Aux f (n / 2) := by
        rw [pow_succ]; ring
      have e2 : 2 ^ (log2Aux f (n / 2) + 1 + 1) = 4 * 2 ^ log2Aux f (n / 2) := by
        rw [pow_succ, pow_succ]; ring
      omega
    · simp only [if_neg h]
      have : n = 1 := by omega
      simp [this]

theorem natLog2_spec (n : ℕ) (h : 1 ≤ n) :
    2 ^ natLog2 n ≤ n ∧ n < 2 ^ (natLog2 n + 1) :=
  log2Aux_spec n n h le_rfl

/-! ## Lemmas: nearest-even integer rounding -/

theorem roundIntQ_ge (x : ℚ) : x - 1/2 ≤ (roundIntQ x : ℚ) := by
  have hfl := Int.floor_le x
  have hcl := Int.lt_floor_add_one x
  unfold roundIntQ
  split_ifs <;> push_cast <;> linarith

theorem roundIntQ_le (x : ℚ) : (roundIntQ x : ℚ) ≤ x + 1/2 := by
  have hfl := Int.floor_le x
  have hcl := Int.lt_floor_add_one x
  unfold roundIntQ
  split_ifs <;> push_cast <;> linarith

theorem floor_le_roundIntQ (x : ℚ) : ⌊x⌋ ≤ roundIntQ x := by
  unfold roundIntQ; split_ifs <;> omega

theorem roundIntQ_le_floor_add_one (x : ℚ) : roundIntQ x ≤ ⌊x⌋ + 1 := by
  unfold roundIntQ; split_ifs <;> omega

theorem roundIntQ_mono {x y : ℚ} (h : x ≤ y) : roundIntQ x ≤ roundIntQ y := by
  rcases lt_or_ge ⌊x⌋ ⌊y⌋ with hf | hf
  · calc roundIntQ x ≤ ⌊x⌋ + 1 := roundIntQ_le_floor_add_one x
    _ ≤ ⌊y⌋ := by omega
    _ ≤ roundIntQ y := floor_le_roundIntQ y
  · have hfe : ⌊x⌋ = ⌊y⌋ := le_antisymm (Int.floor_le_floor h) hf
    unfold roundIntQ
    rw [hfe]
    split_ifs <;> try omega
    all_goals (exfalso; linarith)

/-! ## Lemmas: the bridge from `roundEvenDiv` to `roundIntQ` -/

theorem roundEvenDiv_eq (n d : ℕ) (hd : d ≠ 0) :
    (roundEvenDiv n d : ℤ) = roundIntQ ((n : ℚ) / d) := by
  have hd0 : (0 : ℚ) < d := by exact_mod_cast Nat.pos_of_ne_zero hd
  have hfl : ⌊(n : ℚ) / d⌋ = ((n / d : ℕ) : ℤ) := by
    rw [Rat.floor_natCast_div_natCast n d, Int.natCast_div]
  have hmod : (n : ℚ) / d - ((n / d : ℕ) : ℚ) = ((n % d : ℕ) : ℚ) / d := by
    have hn : (d : ℚ) * ((n / d : ℕ) : ℚ) + ((n % d : ℕ) : ℚ) = (n : ℚ) := by
      exact_mod_cast congrArg (Nat.cast : ℕ → ℚ) (Nat.div_add_mod n d)
    field_simp
    linarith
  have c1 : ((n : ℚ) / d - ⌊(n : ℚ) / d⌋ < 1/2) ↔ (2 * (n % d) < d) := by
    rw [hfl, Int.cast_natCast, hmod, div_lt_iff hd0]
    rw [show (1 : ℚ)/2 * d = d/2 by ring, lt_div_iff (by norm_num : (0:ℚ) < 2)]
    norm_cast
    omega
  have c2 : (1/2 < (n : ℚ) / d - ⌊(n : ℚ) / d⌋) ↔ (d < 2 * (n % d)) := by
    rw [hfl, Int.cast_natCast, hmod, lt_div_iff hd0]
    rw [show (1 : ℚ)/2 * d = d/2 by ring, div_lt_iff (by norm_num : (0:ℚ) < 2)]
    norm_cast
    omega
  have c3 : (⌊(n : ℚ) / d⌋ % 2 = 0) ↔ ((n / d) % 2 = 0) := by
    rw [hfl]; omega
  unfold roundEvenDiv roundIntQ
  by_cases h1 : 2 * (n % d) < d
  · rw [if_pos h1, if_pos (c1.mpr h1), hfl]
  · rw [if_neg h1, if_neg (fun hh => h1 (c1.mp hh))]
    by_cases h2 : d < 2 * (n % d)
    · rw [if_pos h2, if_pos (c2.mpr h2), hfl]; push_cast; ring
    · rw [if_neg h2, if_neg (fun hh => h2 (c2.mp hh))]
      by_cases h3 : (n / d) % 2 = 0
      · rw [if_pos h3, if_pos (c3.mpr h3), hfl]
      · rw [if_neg h3, if_neg (fun hh => h3 (c3.mp hh)), hfl]; push_cast; ring

/-! ## Lemmas: the exponent computed by `fpDivRound` brackets the quotient -/

theorem fpExp_spec (a b : ℕ) (ha : a ≠ 0) (hb : b ≠ 0) :
    (2 : ℚ) ^ fpExp a b * b ≤ a ∧ (a : ℚ) < 2 ^ (fpExp a b + 1) * b := by
  obtain ⟨la1, la2⟩ := natLog2_spec a (Nat.one_le_iff_ne_zero.mpr ha)
  obtain ⟨lb1, lb2⟩ := natLog2_spec b (Nat.one_le_iff_ne_zero.mpr hb)
  have hb0 : (0 : ℚ) < b := by exact_mod_cast Nat.pos_of_ne_zero hb
  unfold fpExp
  by_cases hc : a * 2 ^ natLog2 b < b * 2 ^ natLog2 a
  · rw [if_pos hc]
    constructor
    · have hnat : 2 ^ natLog2 a * b ≤ a * 2 ^ (natLog2 b + 1) := by
        refine le_of_lt ?_
        calc 2 ^ natLog2 a * b < 2 ^ natLog2 a * (b + 1) :=
              mul_lt_mul_of_pos_left (by omega) (by positivity)
          _ ≤ 2 ^ natLog2 a * 2 ^ (natLog2 b + 1) :=
              mul_le_mul_of_nonneg_left (by omega) (by positivity)
          _ ≤ a * 2 ^ (natLog2 b + 1) :=
              mul_le_mul_of_nonneg_right la1 (by positivity)
      have hexp : (natLog2 a : ℤ) - natLog2 b - 1 = (natLog2 a : ℤ) - ((natLog2 b + 1 : ℕ) : ℤ) := by
        push_cast; ring
      rw [hexp, zpow_sub₀ (two_ne_zero), div_mul_eq_mul_div, div_le_iff (zpow_pos two_pos _)]
      rw [zpow_natCast, zpow_natCast]
      exact_mod_cast hnat
    · have hnat : a * 2 ^ natLog2 b < 2 ^ natLog2 a * b := by
        calc a * 2 ^ natLog2 b < b * 2 ^ natLog2 a := hc
          _ = 2 ^ natLog2 a * b := mul_comm _ _
      have hexp : (natLog2 a : ℤ) - natLog2 b - 1 + 1 = (natLog2 a : ℤ) - natLog2 b := by ring
      rw [hexp, zpow_sub₀ (two_ne_zero), div_mul_eq_mul_div, lt_div_iff (zpow_pos two_pos _)]
      rw [zpow_natCast, zpow_natCast]
      exact_mod_cast hnat
  · rw [if_neg hc]
    constructor
    · have hnat : 2 ^ natLog2 a * b ≤ a * 2 ^ natLog2 b := by
        calc 2 ^ natLog2 a * b = b * 2 ^ natLog2 a := mul_comm _ _
          _ ≤ a * 2 ^ natLog2 b := Nat.le_of_not_lt hc
      have hexp : (natLog2 a : ℤ) - natLog2 b - 0 = (natLog2 a : ℤ) - natLog2 b := by ring
      rw [hexp, zpow_sub₀ (two_ne_zero), div_mul_eq_mul_div, div_le_iff (zpow_pos two_pos _)]
      rw [zpow_natCast, zpow_natCast]
      exact_mod_cast hnat
    · have hnat : a * 2 ^ natLog2 b < 2 ^ (natLog2 a + 1) * b := by
        calc a * 2 ^ natLog2 b < 2 ^ (natLog2 a + 1) * 2 ^ natLog2 b :=
              mul_lt_mul_of_pos_right la2 (by positivity)
          _ ≤ 2 ^ (natLog2 a + 1) * b :=
              mul_le_mul_of_nonneg_left lb1 (by positivity)
      have hexp : (natLog2 a : ℤ) - natLog2 b - 0 + 1 = ((natLog2 a + 1 : ℕ) : ℤ) - natLog2 b := by
        push_cast; ring
      rw [hexp, zpow_sub₀ (two_ne_zero), div_mul_eq_mul_div, lt_div_iff (zpow_pos two_pos _)]
      rw [zpow_natCast, zpow_natCast]
      exact_mod_cast hnat

/-! ## Lemmas: the value computed by `fpDivRound` -/

theorem FP.val_nonneg (x : FP) : 0 ≤ x.val := by
  unfold FP.val; positivity

theorem fpDivRound_val (a b : ℕ) (ha : a ≠ 0) (hb : b ≠ 0) :
    (fpDivRound a b).val
      = (roundIntQ ((a : ℚ) / b * 2 ^ (52 - fpExp a b)) : ℚ) * 2 ^ (fpExp a b - 52) := by
  have hb0 : (0 : ℚ) < b := by exact_mod_cast Nat.pos_of_ne_zero hb
  unfold fpDivRound
  rw [if_neg (by simp [ha, hb])]
  by_cases hk : 0 ≤ 52 - fpExp a b
  · rw [if_pos hk]
    have htn : (((52 - fpExp a b).toNat : ℕ) : ℤ) = 52 - fpExp a b := Int.toNat_of_nonneg hk
    have hpow : (2 : ℚ) ^ (52 - fpExp a b) = ((2 ^ (52 - fpExp a b).toNat : ℕ) : ℚ) := by
      push_cast
      rw [← zpow_natCast (2 : ℚ) (52 - fpExp a b).toNat, htn]
    have harg : ((a * 2 ^ (52 - fpExp a b).toNat : ℕ) : ℚ) / b
        = (a : ℚ) / b * 2 ^ (52 - fpExp a b) := by
      rw [hpow]
      push_cast
      ring
    have hbr := roundEvenDiv_eq (a * 2 ^ (52 - fpExp a b).toNat) b hb
    rw [harg] at hbr
    show ((roundEvenDiv (a * 2 ^ (52 - fpExp a b).toNat) b : ℕ) : ℚ) / 2 ^ (52 - fpExp a b).toNat = _
    have hcast : ((roundEvenDiv (a * 2 ^ (52 - fpExp a b).toNat) b : ℕ) : ℚ)
        = ((roundIntQ ((a : ℚ) / b * 2 ^ (52 - fpExp a b)) : ℤ) : ℚ) := by
      exact_mod_cast congrArg (fun z : ℤ => (z : ℚ)) hbr
    rw [hcast]
    rw [div_eq_mul_inv, ← zpow_natCast (2 : ℚ) (52 - fpExp a b).toNat, htn, ← zpow_neg]
    congr 1
    ring
  · rw [if_neg hk]
    have hneg : 0 ≤ fpExp a b - 52 := by omega
    have htn : (((fpExp a b - 52).toNat : ℕ) : ℤ) = fpExp a b - 52 := Int.toNat_of_nonneg hneg
    have hbne : b * 2 ^ (fpExp a b - 52).toNat ≠ 0 := by positivity
    have hpow : (2 : ℚ) ^ (fpExp a b - 52) = ((2 ^ (fpExp a b - 52).toNat : ℕ) : ℚ) := by
      push_cast
      rw [← zpow_natCast (2 : ℚ) (fpExp a b - 52).toNat, htn]
    have harg : ((a : ℕ) : ℚ) / ((b * 2 ^ (fpExp a b - 52).toNat : ℕ) : ℚ)
        = (a : ℚ) / b * 2 ^ (52 - fpExp a b) := by
      have h1 : (2 : ℚ) ^ (52 - fpExp a b) = ((2 : ℚ) ^ (fpExp a b - 52))⁻¹ := by
        rw [← zpow_neg]; congr 1; ring
      rw [h1, hpow]
      push_cast
      field_simp
    have hbr := roundEvenDiv_eq a (b * 2 ^ (fpExp a b - 52).toNat) hbne
    rw [harg] at hbr
    have hbrQ : ((roundEvenDiv a (b * 2 ^ (fpExp a b - 52).toNat) : ℕ) : ℚ)
        = ((roundIntQ ((a : ℚ) / b * 2 ^ (52 - fpExp a b)) : ℤ) : ℚ) := by
      exact_mod_cast hbr
    show ((roundEvenDiv a (b * 2 ^ (fpExp a b - 52).toNat) * 2 ^ (fpExp a b - 52).toNat : ℕ) : ℚ)
        / 2 ^ (0 : ℕ) = _
    rw [pow_zero, div_one]
    push_cast [hbrQ]
    rw [show ((2 : ℚ) ^ (fpExp a b - 52).toNat) = (2 : ℚ) ^ (fpExp a b - 52) by
      rw [← zpow_natCast (2 : ℚ) (fpExp a b - 52).toNat, htn]]

theorem fpExp_q (a b : ℕ) (ha : a ≠ 0) (hb : b ≠ 0) :
    (2 : ℚ) ^ fpExp a b ≤ (a : ℚ) / b ∧ (a : ℚ) / b < 2 ^ (fpExp a b + 1) := by
  have hb0 : (0 : ℚ) < b := by exact_mod_cast Nat.pos_of_ne_zero hb
  obtain ⟨h1, h2⟩ := fpExp_spec a b ha hb
  exact ⟨(le_div_iff hb0).mpr h1, (div_lt_iff hb0).mpr h2⟩

theorem fpDivRound_window (a b : ℕ) (ha : a ≠ 0) (hb : b ≠ 0) :
    (2 : ℚ) ^ (52 : ℤ) ≤ (a : ℚ) / b * 2 ^ (52 - fpExp a b) ∧
      (a : ℚ) / b * 2 ^ (52 - fpExp a b) < (2 : ℚ) ^ (53 : ℤ) := by
  obtain ⟨h1, h2⟩ := fpExp_q a b ha hb
  constructor
  · have hco : (2 : ℚ) ^ (52 : ℤ) = 2 ^ fpExp a b * 2 ^ (52 - fpExp a b) := by
      rw [← zpow_add₀ (two_ne_zero : (2:ℚ) ≠ 0)]
      congr 1
      ring
    rw [hco]
    exact mul_le_mul_of_nonneg_right h1 (le_of_lt (zpow_pos two_pos _))
  · have hco : (2 : ℚ) ^ (53 : ℤ) = 2 ^ (fpExp a b + 1) * 2 ^ (52 - fpExp a b) := by
      rw [← zpow_add₀ (two_ne_zero : (2:ℚ) ≠ 0)]
      congr 1
      ring
    rw [hco]
    exact mul_lt_mul_of_pos_right h2 (zpow_pos two_pos _)

theorem eps_eq : eps = (2 : ℚ) ^ (-53 : ℤ) := by
  rw [eps]
  norm_num

theorem fpDivRound_bounds (a b : ℕ) (hb : b ≠ 0) :
    (a : ℚ) / b * (1 - eps) ≤ (fpDivRound a b).val ∧
      (fpDivRound a b).val ≤ (a : ℚ) / b * (1 + eps) := by
  by_cases ha : a = 0
  · subst ha
    have hz : fpDivRound 0 b = ⟨0, 0⟩ := by unfold fpDivRound; simp
    rw [hz]
    norm_num [FP.val]
  · have hb0 : (0 : ℚ) < b := by exact_mod_cast Nat.pos_of_ne_zero hb
    have hq0 : 0 < (a : ℚ) / b := by positivity
    obtain ⟨he1, _⟩ := fpExp_q a b ha hb
    rw [fpDivRound_val a b ha hb]
    have hcol : (a : ℚ) / b * 2 ^ (52 - fpExp a b) * 2 ^ (fpExp a b - 52) = (a : ℚ) / b := by
      rw [mul_assoc, ← zpow_add₀ (two_ne_zero : (2:ℚ) ≠ 0)]
      norm_num
    have herr : (1 : ℚ) / 2 * 2 ^ (fpExp a b - 52) ≤ (a : ℚ) / b * eps := by
      have h1 : (1 : ℚ) / 2 * 2 ^ (fpExp a b - 52) = 2 ^ fpExp a b * (2 : ℚ) ^ (-53 : ℤ) := by
        rw [← zpow_add₀ (two_ne_zero : (2:ℚ) ≠ 0)]
        rw [show (1 : ℚ) / 2 = (2 : ℚ) ^ (-1 : ℤ) by norm_num]
        rw [← zpow_add₀ (two_ne_zero : (2:ℚ) ≠ 0)]
        congr 1
        ring
      rw [h1, eps_eq]
      exact mul_le_mul_of_nonneg_right he1 (le_of_lt (zpow_pos two_pos _))
    constructor
    · have h2 : ((a : ℚ) / b * 2 ^ (52 - fpExp a b) - 1/2) * 2 ^ (fpExp a b - 52)
          ≤ (roundIntQ ((a : ℚ) / b * 2 ^ (52 - fpExp a b)) : ℚ) * 2 ^ (fpExp a b - 52) :=
        mul_le_mul_of_nonneg_right (roundIntQ_ge _) (le_of_lt (zpow_pos two_pos _))
      have h3 : ((a : ℚ) / b * 2 ^ (52 - fpExp a b) - 1/2) * 2 ^ (fpExp a b - 52)
          = (a : ℚ) / b - 1/2 * 2 ^ (fpExp a b - 52) := by
        rw [sub_mul, hcol]
      rw [h3] at h2
      nlinarith [herr]
    · have h2 : (roundIntQ ((a : ℚ) / b * 2 ^ (52 - fpExp a b)) : ℚ) * 2 ^ (fpExp a b - 52)
          ≤ ((a : ℚ) / b * 2 ^ (52 - fpExp a b) + 1/2) * 2 ^ (fpExp a b - 52) :=
        mul_le_mul_of_nonneg_right (roundIntQ_le _) (le_of_lt (zpow_pos two_pos _))
      have h3 : ((a : ℚ) / b * 2 ^ (52 - fpExp a b) + 1/2) * 2 ^ (fpExp a b - 52)
          = (a : ℚ) / b + 1/2 * 2 ^ (fpExp a b - 52) := by
        rw [add_mul, hcol]
      rw [h3] at h2
      nlinarith [herr]

theorem fpDivRound_pos (a b : ℕ) (ha : a ≠ 0) (hb : b ≠ 0) :
    0 < (fpDivRound a b).val := by
  have hb0 : (0 : ℚ) < b := by exact_mod_cast Nat.pos_of_ne_zero hb
  have ha0 : (0 : ℚ) < a := by exact_mod_cast Nat.pos_of_ne_zero ha
  have h := (fpDivRound_bounds a b hb).1
  have heps : (0 : ℚ) < 1 - eps := by norm_num [eps]
  nlinarith [div_pos ha0 hb0]

theorem fpDivRound_mono (a1 b1 a2 b2 : ℕ) (hb1 : b1 ≠ 0) (hb2 : b2 ≠ 0)
    (h : (a1 : ℚ) / b1 ≤ (a2 : ℚ) / b2) :
    (fpDivRound a1 b1).val ≤ (fpDivRound a2 b2).val := by
  by_cases ha1 : a1 = 0
  · subst ha1
    have hz : fpDivRound 0 b1 = ⟨0, 0⟩ := by unfold fpDivRound; simp
    rw [hz]
    have : FP.val ⟨0, 0⟩ = 0 := by norm_num [FP.val]
    rw [this]
    exact FP.val_nonneg _
  · by_cases ha2 : a2 = 0
    · exfalso
      have hb10 : (0 : ℚ) < b1 := by exact_mod_cast Nat.pos_of_ne_zero hb1
      have ha10 : (0 : ℚ) < a1 := by exact_mod_cast Nat.pos_of_ne_zero ha1
      have hq1 : 0 < (a1 : ℚ) / b1 := div_pos ha10 hb10
      subst ha2
      simp at h
      linarith
    · obtain ⟨hq1l, hq1u⟩ := fpExp_q a1 b1 ha1 hb1
      obtain ⟨hq2l, hq2u⟩ := fpExp_q a2 b2 ha2 hb2
      have hee : fpExp a1 b1 ≤ fpExp a2 b2 := by
        have hlt : (2 : ℚ) ^ fpExp a1 b1 < 2 ^ (fpExp a2 b2 + 1) := lt_of_le_of_lt (le_trans hq1l h) hq2u
        have := (zpow_lt_zpow_iff_right₀ (one_lt_two : (1:ℚ) < 2)).mp hlt
        omega
      rw [fpDivRound_val a1 b1 ha1 hb1, fpDivRound_val a2 b2 ha2 hb2]
      rcases eq_or_lt_of_le hee with heq | hlt
      · rw [heq]
        refine mul_le_mul_of_nonneg_right ?_ (le_of_lt (zpow_pos two_pos _))
        exact_mod_cast roundIntQ_mono (mul_le_mul_of_nonneg_right h (le_of_lt (zpow_pos two_pos _)))
      · obtain ⟨hw1l, hw1u⟩ := fpDivRound_window a1 b1 ha1 hb1
        obtain ⟨hw2l, hw2u⟩ := fpDivRound_window a2 b2 ha2 hb2
        have z53 : ((2 ^ 53 : ℤ) : ℚ) = (2 : ℚ) ^ (53 : ℤ) := by norm_num
        have z52 : ((2 ^ 52 : ℤ) : ℚ) = (2 : ℚ) ^ (52 : ℤ) := by norm_num
        have hr1 : roundIntQ ((a1 : ℚ) / b1 * 2 ^ (52 - fpExp a1 b1)) ≤ 2 ^ 53 := by
          have hc : (roundIntQ ((a1 : ℚ) / b1 * 2 ^ (52 - fpExp a1 b1)) : ℚ)
              < ((2 ^ 53 + 1 : ℤ) : ℚ) := by
            have hle := roundIntQ_le ((a1 : ℚ) / b1 * 2 ^ (52 - fpExp a1 b1))
            rw [← z53] at hw1u
            push_cast
            push_cast at hw1u
            linarith
          have hcc : roundIntQ ((a1 : ℚ) / b1 * 2 ^ (52 - fpExp a1 b1)) < 2 ^ 53 + 1 := by
            exact_mod_cast hc
          omega
        have hr2 : (2 ^ 52 : ℤ) ≤ roundIntQ ((a2 : ℚ) / b2 * 2 ^ (52 - fpExp a2 b2)) := by
          have hc : ((2 ^ 52 - 1 : ℤ) : ℚ)
              < (roundIntQ ((a2 : ℚ) / b2 * 2 ^ (52 - fpExp a2 b2)) : ℚ) := by
            have hge := roundIntQ_ge ((a2 : ℚ) / b2 * 2 ^ (52 - fpExp a2 b2))
            rw [← z52] at hw2l
            push_cast
            push_cast at hw2l
            linarith
          have hcc : (2 ^ 52 - 1 : ℤ) < roundIntQ ((a2 : ℚ) / b2 * 2 ^ (52 - fpExp a2 b2)) := by
            exact_mod_cast hc
          omega
        have s1 : (roundIntQ ((a1 : ℚ) / b1 * 2 ^ (52 - fpExp a1 b1)) : ℚ) * 2 ^ (fpExp a1 b1 - 52)
            ≤ ((2 ^ 53 : ℤ) : ℚ) * 2 ^ (fpExp a1 b1 - 52) := by
          refine mul_le_mul_of_nonneg_right ?_ (le_of_lt (zpow_pos two_pos _))
          exact_mod_cast hr1
        have s2 : ((2 ^ 53 : ℤ) : ℚ) * 2 ^ (fpExp a1 b1 - 52) = (2 : ℚ) ^ (fpExp a1 b1 + 1) := by
          rw [z53, ← zpow_add₀ (two_ne_zero : (2:ℚ) ≠ 0)]
          congr 1
          ring
        have s3 : (2 : ℚ) ^ (fpExp a1 b1 + 1) ≤ (2 : ℚ) ^ fpExp a2 b2 := by
          refine zpow_le_zpow_right₀ (one_le_two : (1:ℚ) ≤ 2) ?_
          omega
        have s4 : (2 : ℚ) ^ fpExp a2 b2 = ((2 ^ 52 : ℤ) : ℚ) * 2 ^ (fpExp a2 b2 - 52) := by
          rw [z52, ← zpow_add₀ (two_ne_zero : (2:ℚ) ≠ 0)]
          congr 1
          ring
        have s5 : ((2 ^ 52 : ℤ) : ℚ) * 2 ^ (fpExp a2 b2 - 52)
            ≤ (roundIntQ ((a2 : ℚ) / b2 * 2 ^ (52 - fpExp a2 b2)) : ℚ) * 2 ^ (fpExp a2 b2 - 52) := by
          refine mul_le_mul_of_nonneg_right ?_ (le_of_lt (zpow_pos two_pos _))
          exact_mod_cast hr2
        exact s1.trans (s2.le.trans (s3.trans (s4.le.trans s5)))

/-! ## Lemmas: the float operations in terms of `FP.val` -/

theorem fmul_ratio (x y : FP) :
    ((x.num * y.num : ℕ) : ℚ) / ((2 ^ (x.exp + y.exp) : ℕ) : ℚ) = x.val * y.val := by
  unfold FP.val
  push_cast
  rw [pow_add]
  field_simp

theorem fadd_ratio (x y : FP) :
    ((x.num * 2 ^ y.exp + y.num * 2 ^ x.exp : ℕ) : ℚ) / ((2 ^ (x.exp + y.exp) : ℕ) : ℚ)
      = x.val + y.val := by
  unfold FP.val
  push_cast
  rw [pow_add]
  field_simp

theorem fdiv_ratio (x y : FP) :
    ((x.num * 2 ^ y.exp : ℕ) : ℚ) / ((y.num * 2 ^ x.exp : ℕ) : ℚ) = x.val / y.val := by
  by_cases hy : y.num = 0
  · simp [FP.val, hy]
  · unfold FP.val
    have hy0 : ((y.num : ℕ) : ℚ) ≠ 0 := by exact_mod_cast hy
    push_cast
    field_simp
    exact Or.inl (by ring)

theorem floatOfNat_ratio (n : ℕ) : ((n : ℕ) : ℚ) / ((1 : ℕ) : ℚ) = (n : ℚ) := by
  norm_num

theorem fmul_bounds (x y : FP) :
    x.val * y.val * (1 - eps) ≤ (fmul x y).val ∧
      (fmul x y).val ≤ x.val * y.val * (1 + eps) := by
  have h := fpDivRound_bounds (x.num * y.num) (2 ^ (x.exp + y.exp)) (by positivity)
  rw [fmul_ratio] at h
  exact h

theorem fadd_bounds (x y : FP) :
    (x.val + y.val) * (1 - eps) ≤ (fadd x y).val ∧
      (fadd x y).val ≤ (x.val + y.val) * (1 + eps) := by
  have h := fpDivRound_bounds (x.num * 2 ^ y.exp + y.num * 2 ^ x.exp)
    (2 ^ (x.exp + y.exp)) (by positivity)
  rw [fadd_ratio] at h
  exact h

theorem floatOfNat_bounds (n : ℕ) :
    (n : ℚ) * (1 - eps) ≤ (floatOfNat n).val ∧ (floatOfNat n).val ≤ (n : ℚ) * (1 + eps) := by
  have h := fpDivRound_bounds n 1 one_ne_zero
  rw [floatOfNat_ratio] at h
  exact h

theorem fmul_mono {x y x' y' : FP} (h : x.val * y.val ≤ x'.val * y'.val) :
    (fmul x y).val ≤ (fmul x' y').val := by
  unfold fmul
  refine fpDivRound_mono _ _ _ _ (by positivity) (by positivity) ?_
  rw [fmul_ratio, fmul_ratio]
  exact h

theorem fadd_mono {x y x' y' : FP} (h : x.val + y.val ≤ x'.val + y'.val) :
    (fadd x y).val ≤ (fadd x' y').val := by
  unfold fadd
  refine fpDivRound_mono _ _ _ _ (by positivity) (by positivity) ?_
  rw [fadd_ratio, fadd_ratio]
  exact h

theorem fdiv_mono {x y x' y' : FP} (hy : y.num ≠ 0) (hy' : y'.num ≠ 0)
    (h : x.val / y.val ≤ x'.val / y'.val) :
    (fdiv x y).val ≤ (fdiv x' y').val := by
  unfold fdiv
  refine fpDivRound_mono _ _ _ _ (by positivity) (by positivity) ?_
  rw [fdiv_ratio, fdiv_ratio]
  exact h

theorem floatOfNat_mono {m n : ℕ} (h : m ≤ n) :
    (floatOfNat m).val ≤ (floatOfNat n).val := by
  unfold floatOfNat
  refine fpDivRound_mono _ _ _ _ one_ne_zero one_ne_zero ?_
  rw [floatOfNat_ratio, floatOfNat_ratio]
  exact_mod_cast h

theorem floatOfNat_num_ne_zero {n : ℕ} (hn : n ≠ 0) : (floatOfNat n).num ≠ 0 := by
  intro hzero
  have hpos := fpDivRound_pos n 1 hn one_ne_zero
  have : (floatOfNat n).val = 0 := by
    unfold FP.val
    rw [show (floatOfNat n).num = 0 from hzero]
    norm_num
  unfold floatOfNat at this
  rw [this] at hpos
  exact lt_irrefl 0 hpos

/-! ## Lemmas: Python truncation on floats -/

theorem pyTrunc_eq_floor (x : FP) : (pyTrunc x : ℤ) = ⌊x.val⌋ := by
  unfold pyTrunc FP.val
  have h2 : ((2 : ℚ) ^ x.exp) = ((2 ^ x.exp : ℕ) : ℚ) := by push_cast; ring
  rw [h2, Rat.floor_natCast_div_natCast, Int.natCast_div]

theorem pyTrunc_mono {x y : FP} (h : x.val ≤ y.val) : pyTrunc x ≤ pyTrunc y := by
  have hf := Int.floor_le_floor h
  rw [← pyTrunc_eq_floor, ← pyTrunc_eq_floor] at hf
  exact_mod_cast hf

theorem pyTrunc_le_of_lt (x : FP) (c : ℕ) (h : x.val < (c : ℚ) + 1) : pyTrunc x ≤ c := by
  have h1 : ⌊x.val⌋ < (c : ℤ) + 1 := by
    rw [Int.floor_lt]
    push_cast
    exact h
  rw [← pyTrunc_eq_floor] at h1
  exact_mod_cast Int.lt_add_one_iff.mp h1

theorem pyTrunc_ge (x : FP) (c : ℕ) (h : (c : ℚ) ≤ x.val) : c ≤ pyTrunc x := by
  have h1 : (c : ℤ) ≤ ⌊x.val⌋ := Int.le_floor.mpr (by push_cast; exact h)
  rw [← pyTrunc_eq_floor] at h1
  exact_mod_cast h1

/-! ## Lemmas: the weighted average is within one of the exact floor -/

theorem roundingSandwich (S K E xv yv av bv vv fq : ℚ)
    (hS0 : 0 ≤ S) (hS1 : S ≤ 100) (hK0 : 0 ≤ K) (hK1 : K ≤ 100)
    (hE0 : 0 < E) (hE1 : E < 1 / 1000000)
    (hx1 : S * (1 - E) ≤ xv) (hx2 : xv ≤ S * (1 + E)) (hx0 : 0 ≤ xv)
    (hy1 : K * (1 - E) ≤ yv) (hy2 : yv ≤ K * (1 + E)) (hy0 : 0 ≤ yv)
    (ha1 : xv * (7/10 - 2/5 * E) * (1 - E) ≤ av)
    (ha2 : av ≤ xv * (7/10 - 2/5 * E) * (1 + E)) (hA0 : 0 ≤ av)
    (hb1 : yv * (3/10 - 1/10 * E) * (1 - E) ≤ bv)
    (hb2 : bv ≤ yv * (3/10 - 1/10 * E) * (1 + E)) (hB0 : 0 ≤ bv)
    (hv1 : (av + bv) * (1 - E) ≤ vv) (hv2 : vv ≤ (av + bv) * (1 + E)) (hv0 : 0 ≤ vv)
    (hfq1 : fq * 10 ≤ 7 * S + 3 * K) (hfq2 : 7 * S + 3 * K ≤ fq * 10 + 9) :
    fq - 1 ≤ vv ∧ vv < fq + 1 := by
  ring_nf at ha1 ha2 hb1 hb2 hv1 hv2 hx1 hx2 hy1 hy2
  have pSE : S * E ≤ 100 * E := mul_le_mul_of_nonneg_right hS1 hE0.le
  ring_nf at pSE
  have pKE : K * E ≤ 100 * E := mul_le_mul_of_nonneg_right hK1 hE0.le
  have hxu : xv ≤ S + 100 * E := by linarith only [hx2, pSE]
  have hxl : S - 100 * E ≤ xv := by linarith only [hx1, pSE]
  have hyu : yv ≤ K + 100 * E := by linarith only [hy2, pKE]
  have hyl : K - 100 * E ≤ yv := by linarith only [hy1, pKE]
  have hxv101 : xv ≤ 101 := by linarith only [hxu, hS1, hE1, hE0]
  have hyv101 : yv ≤ 101 := by linarith only [hyu, hK1, hE1, hE0]
  have pxE : xv * E ≤ 101 * E := mul_le_mul_of_nonneg_right hxv101 hE0.le
  have pyE : yv * E ≤ 101 * E := mul_le_mul_of_nonneg_right hyv101 hE0.le
  have pxE2 : 0 ≤ xv * E ^ 2 := mul_nonneg hx0 (sq_nonneg E)
  have pyE2 : 0 ≤ yv * E ^ 2 := mul_nonneg hy0 (sq_nonneg E)
  ring_nf at pxE pyE pxE2 pyE2
  have hAu : av ≤ 7 * S / 10 + 300 * E := by nlinarith only [ha2, pxE, pxE2, hxu, hE0]
  have hAl : 7 * S / 10 - 300 * E ≤ av := by nlinarith only [ha1, pxE, pxE2, hxl, hE0]
  have hBu : bv ≤ 3 * K / 10 + 300 * E := by nlinarith only [hb2, pyE, pyE2, hyu, hE0]
  have hBl : 3 * K / 10 - 300 * E ≤ bv := by nlinarith only [hb1, pyE, pyE2, hyl, hE0]
  have hav71 : av ≤ 71 := by linarith only [hAu, hS1, hE1, hE0]
  have hbv31 : bv ≤ 31 := by linarith only [hBu, hK1, hE1, hE0]
  have paE : av * E ≤ 71 * E := mul_le_mul_of_nonneg_right hav71 hE0.le
  have pbE : bv * E ≤ 31 * E := mul_le_mul_of_nonneg_right hbv31 hE0.le
  ring_nf at paE pbE
  have hvu : vv ≤ (7 * S + 3 * K) / 10 + 1000 * E := by
    nlinarith only [hv2, hAu, hBu, paE, pbE, hE0]
  have hvl : (7 * S + 3 * K) / 10 - 1000 * E ≤ vv := by
    nlinarith only [hv1, hAl, hBl, paE, pbE, hE0]
  constructor
  · linarith only [hvl, hfq1, hE1, hE0]
  · linarith only [hvu, hfq2, hE1, hE0]

theorem overallScoreOf_near_exact (sm kc : ℕ) (hsm : sm ≤ 100) (hkc : kc ≤ 100) :
    (7 * sm + 3 * kc) / 10 ≤ overallScoreOf sm kc + 1 ∧
      overallScoreOf sm kc ≤ (7 * sm + 3 * kc) / 10 := by
  have hfqN1 : ((7 * sm + 3 * kc) / 10 : ℕ) * 10 ≤ 7 * sm + 3 * kc := by omega
  have hfqN2 : 7 * sm + 3 * kc ≤ ((7 * sm + 3 * kc) / 10 : ℕ) * 10 + 9 := by omega
  have hfq1 : (((7 * sm + 3 * kc) / 10 : ℕ) : ℚ) * 10 ≤ 7 * (sm : ℚ) + 3 * (kc : ℚ) := by
    exact_mod_cast hfqN1
  have hfq2 : 7 * (sm : ℚ) + 3 * (kc : ℚ) ≤ (((7 * sm + 3 * kc) / 10 : ℕ) : ℚ) * 10 + 9 := by
    exact_mod_cast hfqN2
  have hc7 : c07.val = 7/10 - 2/5 * eps := by norm_num [c07, FP.val, eps]
  have hc3 : c03.val = 3/10 - 1/10 * eps := by norm_num [c03, FP.val, eps]
  obtain ⟨hx1, hx2⟩ := floatOfNat_bounds sm
  obtain ⟨hy1, hy2⟩ := floatOfNat_bounds kc
  obtain ⟨ha1, ha2⟩ := fmul_bounds (floatOfNat sm) c07
  obtain ⟨hb1, hb2⟩ := fmul_bounds (floatOfNat kc) c03
  obtain ⟨hv1, hv2⟩ := fadd_bounds (fmul (floatOfNat sm) c07) (fmul (floatOfNat kc) c03)
  rw [hc7] at ha1 ha2
  rw [hc3] at hb1 hb2
  obtain ⟨hL, hU⟩ := roundingSandwich (sm : ℚ) (kc : ℚ) eps
    (floatOfNat sm).val (floatOfNat kc).val
    (fmul (floatOfNat sm) c07).val (fmul (floatOfNat kc) c03).val
    (fadd (fmul (floatOfNat sm) c07) (fmul (floatOfNat kc) c03)).val
    (((7 * sm + 3 * kc) / 10 : ℕ) : ℚ)
    (Nat.cast_nonneg sm) (by exact_mod_cast hsm) (Nat.cast_nonneg kc) (by exact_mod_cast hkc)
    (by norm_num [eps]) (by norm_num [eps])
    hx1 hx2 (FP.val_nonneg _)
    hy1 hy2 (FP.val_nonneg _)
    ha1 ha2 (FP.val_nonneg _)
    hb1 hb2 (FP.val_nonneg _)
    hv1 hv2 (FP.val_nonneg _)
    hfq1 hfq2
  constructor
  · rcases Nat.eq_zero_or_pos ((7 * sm + 3 * kc) / 10) with hF0 | hFpos
    · rw [hF0]
      exact Nat.zero_le _
    · have hc : (((7 * sm + 3 * kc) / 10 - 1 : ℕ) : ℚ)
          = (((7 * sm + 3 * kc) / 10 : ℕ) : ℚ) - 1 := by
        rw [Nat.cast_sub hFpos]
        norm_num
      have hcq : (((7 * sm + 3 * kc) / 10 - 1 : ℕ) : ℚ)
          ≤ (fadd (fmul (floatOfNat sm) c07) (fmul (floatOfNat kc) c03)).val := by
        rw [hc]
        exact hL
      have hge := pyTrunc_ge _ _ hcq
      exact Nat.sub_le_iff_le_add.mp hge
  · exact pyTrunc_le_of_lt _ _ hU

/-! ## Lemmas: the scores stay within `[0, 100]` -/

theorem percentOf_le_100 (m n : ℕ) (hmn : m ≤ n) : percentOf m n ≤ 100 := by
  rcases Nat.eq_zero_or_pos n with hn0 | hnpos
  · have hm0 : m = 0 := by omega
    subst hm0
    subst hn0
    decide
  · have hn : n ≠ 0 := by omega
    have hdnpos : 0 < (floatOfNat n).val := fpDivRound_pos n 1 hn one_ne_zero
    have hdm_le : (floatOfNat m).val ≤ (floatOfNat n).val := floatOfNat_mono hmn
    have hone : (FP.mk 1 0).val = 1 := by norm_num [FP.val]
    have hratio : (floatOfNat m).val / (floatOfNat n).val
        ≤ (FP.mk 1 0).val / (FP.mk 1 0).val := by
      rw [hone, div_one]
      exact (div_le_one hdnpos).mpr hdm_le
    have hdiv_le := fdiv_mono (floatOfNat_num_ne_zero hn)
      (show (FP.mk 1 0).num ≠ 0 from one_ne_zero) hratio
    have hmul_le : (fmul (fdiv (floatOfNat m) (floatOfNat n)) (floatOfNat 100)).val
        ≤ (fmul (fdiv (FP.mk 1 0) (FP.mk 1 0)) (floatOfNat 100)).val :=
      fmul_mono (mul_le_mul_of_nonneg_right hdiv_le (FP.val_nonneg _))
    have hend : pyTrunc (fmul (fdiv (FP.mk 1 0) (FP.mk 1 0)) (floatOfNat 100)) = 100 := by
      decide
    exact le_trans (pyTrunc_mono hmul_le) (le_of_eq hend)

theorem overallScoreOf_le_100 (sm kc : ℕ) (hsm : sm ≤ 100) (hkc : kc ≤ 100) :
    overallScoreOf sm kc ≤ 100 :=
  le_trans (overallScoreOf_near_exact sm kc hsm hkc).2
    (by omega : (7 * sm + 3 * kc) / 10 ≤ 100)

/-- The numerator of the skill-match ratio never exceeds the denominator:
a duplicate-free list has at most `j.length` members that belong to `j`. -/
theorem filter_contains_length_le (l j : List String) (hl : l.Nodup) :
    (l.filter (fun s => j.contains s)).length ≤ j.length := by
  have hnd : (l.filter (fun s => j.contains s)).Nodup := hl.filter _
  have hcard : (l.filter (fun s => j.contains s)).toFinset.card
      = (l.filter (fun s => j.contains s)).length := List.toFinset_card_of_nodup hnd
  have hsub : (l.filter (fun s => j.contains s)).toFinset ⊆ j.toFinset := by
    intro x hx
    rw [List.mem_toFinset] at hx
    rw [List.mem_toFinset]
    have := List.of_mem_filter hx
    simpa using this
  calc (l.filter (fun s => j.contains s)).length
      = (l.filter (fun s => j.contains s)).toFinset.card := hcard.symm
    _ ≤ j.toFinset.card := Finset.card_le_card hsub
    _ ≤ j.length := j.toFinset_card_le


/-! ## Lemmas: monotonicity of the skill-match percentage -/

theorem percentOf_mono (m1 m2 n : ℕ) (h : m1 ≤ m2) (hn : n ≠ 0) :
    percentOf m1 n ≤ percentOf m2 n := by
  have hdnpos : 0 < (floatOfNat n).val := fpDivRound_pos n 1 hn one_ne_zero
  have hratio : (floatOfNat m1).val / (floatOfNat n).val
      ≤ (floatOfNat m2).val / (floatOfNat n).val := by
    gcongr
    exact floatOfNat_mono h
  have hdiv := fdiv_mono (floatOfNat_num_ne_zero hn) (floatOfNat_num_ne_zero hn) hratio
  have hmul := fmul_mono (mul_le_mul_of_nonneg_right hdiv (FP.val_nonneg (floatOfNat 100)))
  exact pyTrunc_mono hmul

theorem dedup_toFinset (l : List String) : l.dedup.toFinset = l.toFinset := by
  ext x
  simp [List.mem_dedup]

/-- A larger resume skill list matches at least as many of the job's
required skills. -/
theorem matching_count_mono (r1 r2 J : List String) (hsub : r1 ⊆ r2) :
    ((r1.map pyLower).dedup.filter (fun s => J.contains s)).length
      ≤ ((r2.map pyLower).dedup.filter (fun s => J.contains s)).length := by
  have key : ∀ l : List String,
      ((l.map pyLower).dedup.filter (fun s => J.contains s)).length
        = ((l.map pyLower).toFinset.filter (fun s => J.contains s = true)).card := by
    intro l
    have hnd : ((l.map pyLower).dedup.filter (fun s => J.contains s)).Nodup :=
      (List.nodup_dedup _).filter _
    rw [← List.toFinset_card_of_nodup hnd, List.toFinset_filter, dedup_toFinset]
  rw [key r1, key r2]
  refine Finset.card_le_card (Finset.filter_subset_filter _ ?_)
  intro x hx
  rw [List.mem_toFinset] at hx
  rw [List.mem_toFinset]
  exact List.map_subset pyLower hsub hx

/-! ## Lemmas: the scores of `compare_resume_jd` -/

theorem compare_skill_match_le (resume : ResumeData) (jd : JdData) :
    (compare_resume_jd resume jd).skill_match ≤ 100 := by
  show (if (jd.required_skills.map pyLower).dedup.isEmpty then 100
    else percentOf ((resume.skills.map pyLower).dedup.filter
        (fun s => ((jd.required_skills.map pyLower).dedup).contains s)).length
      (jd.required_skills.map pyLower).dedup.length) ≤ 100
  split_ifs
  · exact le_refl 100
  · exact percentOf_le_100 _ _
      (filter_contains_length_le _ _ (List.nodup_dedup _))

theorem compare_keyword_le (resume : ResumeData) (jd : JdData) :
    (compare_resume_jd resume jd).keyword_coverage ≤ 100 := by
  show (if (jd.keywords.map pyLower).dedup.isEmpty then 100
    else percentOf ((jd.keywords.map pyLower).dedup.filter
        (fun kw => pyIn kw (pyLower resume.text))).length
      (jd.keywords.map pyLower).dedup.length) ≤ 100
  split_ifs
  · exact le_refl 100
  · exact percentOf_le_100 _ _ (List.length_filter_le _ _)

theorem compare_overall_eq (resume : ResumeData) (jd : JdData) :
    (compare_resume_jd resume jd).overall_score
      = overallScoreOf (compare_resume_jd resume jd).skill_match
        (compare_resume_jd resume jd).keyword_coverage := rfl

/-- The exact floor of the weighted average, as a natural division. -/
theorem floor_weighted (S K : ℕ) :
    ⌊(S : ℚ) * (7/10) + (K : ℚ) * (3/10)⌋ = (((7 * S + 3 * K) / 10 : ℕ) : ℤ) := by
  rw [show (S : ℚ) * (7/10) + (K : ℚ) * (3/10)
      = ((7 * S + 3 * K : ℕ) : ℚ) / ((10 : ℕ) : ℚ) by push_cast; ring]
  rw [Rat.floor_natCast_div_natCast, Int.natCast_div]

/-! ## Lemmas: `extract_name` and the suggestion list -/

theorem findName_eq (ls : List String) :
    findName ls = ((ls.find? nameQualifies).map pyStrip).getD "Name not found" := by
  induction ls with
  | nil => rfl
  | cons l rest ih =>
    by_cases h : nameQualifies l
    · simp [findName, List.find?_cons, h]
    · simp only [findName, List.find?_cons]
      rw [if_neg h]
      simp only [Bool.not_eq_true] at h
      rw [h]
      exact ih

theorem genConds_length_le (sm kc : ℕ) (rs js : List String) :
    (genConds sm kc rs js).length ≤ 4 := by
  unfold genConds
  split_ifs <;> simp

theorem staticTips_length : staticTips.length = 4 := rfl


/-! ## Claim C1 -/

/-- **C1, counterexample.**  The scorer produces the pair
`(skill_match, keyword_coverage) = (6, 6)` on the inputs `c1Resume`,
`c1Jd`, and returns `overall_score = 5`, while the exact floor of
`6 * 0.7 + 6 * 0.3` is `6`: double rounding loses one. -/
theorem c1_counterexample :
    (compare_resume_jd c1Resume c1Jd).skill_match = 6 ∧
    (compare_resume_jd c1Resume c1Jd).keyword_coverage = 6 ∧
    (compare_resume_jd c1Resume c1Jd).overall_score = 5 ∧
    ¬ (((compare_resume_jd c1Resume c1Jd).overall_score : ℤ)
        = ⌊(6 : ℚ) * (7/10) + (6 : ℚ) * (3/10)⌋) := by
  refine ⟨by decide, by decide, by decide, ?_⟩
  have h5 : (compare_resume_jd c1Resume c1Jd).overall_score = 5 := by decide
  rw [h5, show (6 : ℚ) * (7/10) + (6 : ℚ) * (3/10) = ((6 : ℤ) : ℚ) by norm_num,
    Int.floor_intCast]
  decide

/-- **C1, amended.**  For every input, the overall score returned by
`compare_resume_jd` equals the exact floor of
`skill_match * 0.7 + keyword_coverage * 0.3`, or that floor minus one
(the deficit arises from binary64 double rounding; it does occur, see the
counterexample). -/
theorem c1_overall_floor (resume : ResumeData) (jd : JdData) :
    ((compare_resume_jd resume jd).overall_score : ℤ)
        = ⌊((compare_resume_jd resume jd).skill_match : ℚ) * (7/10)
            + ((compare_resume_jd resume jd).keyword_coverage : ℚ) * (3/10)⌋ ∨
    ((compare_resume_jd resume jd).overall_score : ℤ)
        = ⌊((compare_resume_jd resume jd).skill_match : ℚ) * (7/10)
            + ((compare_resume_jd resume jd).keyword_coverage : ℚ) * (3/10)⌋ - 1 := by
  have hsm := compare_skill_match_le resume jd
  have hkc := compare_keyword_le resume jd
  have hoeq := compare_overall_eq resume jd
  generalize hS : (compare_resume_jd resume jd).skill_match = S at hsm hoeq ⊢
  generalize hK : (compare_resume_jd resume jd).keyword_coverage = K at hkc hoeq ⊢
  generalize hO : (compare_resume_jd resume jd).overall_score = O at hoeq ⊢
  obtain ⟨h1, h2⟩ := overallScoreOf_near_exact S K hsm hkc
  rw [← hoeq] at h1 h2
  rw [floor_weighted S K]
  clear hS hK hO hoeq
  omega

/-! ## Claim C2 -/

/-- **C2, counterexample.**  `extract_skills` on the example text does
not return exactly `{"Python", "React", "Docker", "Api"}`: the
single-letter vocabulary entry `"r"` also matches (inside "react" and
"docker"). -/
theorem c2_counterexample :
    ¬ ((extract_skills "Built APIs using Python and React with Docker").toFinset
        = ({"Python", "React", "Docker", "Api"} : Finset String)) := by decide

/-- **C2, amended.**  On the example text the skill set is exactly
`{"Python", "React", "Docker", "Api", "R"}`. -/
theorem c2_skills_exact :
    (extract_skills "Built APIs using Python and React with Docker").toFinset
      = ({"Python", "React", "Docker", "Api", "R"} : Finset String) := by decide

/-! ## Claim C3 -/

/-- **C3 (code bug).**  When the parse/compare pipeline raises after both
uploads were saved, the handler leaves both temporary files on disk and
returns the error path — the temporary files are *not* deleted on every
exit path.  On the success path both files are removed. -/
theorem c3_temp_files_leak :
    (analyze_model [] "uploads/resume.pdf" "uploads/jd.txt" true false).2 = false ∧
    "uploads/resume.pdf" ∈ (analyze_model [] "uploads/resume.pdf" "uploads/jd.txt" true false).1 ∧
    "uploads/jd.txt" ∈ (analyze_model [] "uploads/resume.pdf" "uploads/jd.txt" true false).1 ∧
    (analyze_model [] "uploads/resume.pdf" "uploads/jd.txt" true true).1 = [] ∧
    (analyze_model [] "uploads/resume.pdf" "uploads/jd.txt" true true).2 = true := by decide

/-! ## Claim C4 -/

/-- **C4.**  For every resume input and every job-description input, the
three scores returned by `compare_resume_jd` are integers in `[0, 100]`. -/
theorem c4_scores_in_range (resume : ResumeData) (jd : JdData) :
    (0 ≤ (compare_resume_jd resume jd).skill_match ∧
      (compare_resume_jd resume jd).skill_match ≤ 100) ∧
    (0 ≤ (compare_resume_jd resume jd).keyword_coverage ∧
      (compare_resume_jd resume jd).keyword_coverage ≤ 100) ∧
    (0 ≤ (compare_resume_jd resume jd).overall_score ∧
      (compare_resume_jd resume jd).overall_score ≤ 100) := by
  refine ⟨⟨Nat.zero_le _, compare_skill_match_le resume jd⟩,
    ⟨Nat.zero_le _, compare_keyword_le resume jd⟩, ⟨Nat.zero_le _, ?_⟩⟩
  rw [compare_overall_eq]
  exact overallScoreOf_le_100 _ _ (compare_skill_match_le resume jd)
    (compare_keyword_le resume jd)

/-! ## Claim C5 -/

/-- **C5.**  An empty required-skill set yields `skill_match = 100`, and
an empty keyword set yields `keyword_coverage = 100`. -/
theorem c5_vacuous_match (resume : ResumeData) (jd : JdData) :
    (jd.required_skills = [] → (compare_resume_jd resume jd).skill_match = 100) ∧
    (jd.keywords = [] → (compare_resume_jd resume jd).keyword_coverage = 100) := by
  constructor
  · intro h
    simp [compare_resume_jd, h]
  · intro h
    simp [compare_resume_jd, h]

theorem c5_vacuous_match_witness :
    (JdData.mk "t" [] ["agile"]).required_skills = [] ∧
    (compare_resume_jd ⟨"r", ["python"]⟩ ⟨"t", [], ["agile"]⟩).skill_match = 100 ∧
    (JdData.mk "t" ["python"] []).keywords = [] ∧
    (compare_resume_jd ⟨"r", ["python"]⟩ ⟨"t", ["python"], []⟩).keyword_coverage = 100 :=
  ⟨rfl, (c5_vacuous_match ⟨"r", ["python"]⟩ ⟨"t", [], ["agile"]⟩).1 rfl,
   rfl, (c5_vacuous_match ⟨"r", ["python"]⟩ ⟨"t", ["python"], []⟩).2 rfl⟩

/-! ## Claim C6 -/

/-- **C6, counterexample.**  With all four conditional rules firing, the
6-element truncation drops the last static tip: the four static tips are
not always present. -/
theorem c6_counterexample :
    "Add a skills section with relevant technical skills" ∈ staticTips ∧
    "Add a skills section with relevant technical skills"
      ∉ generate_suggestions 0 0 [] ["kubernetes"] := by decide

/-- **C6, amended.**  The suggestion list always has between 4 and 6
elements; the four static tips are all present whenever at most two
conditional suggestions fired (with three or four, the truncation to six
cuts trailing static tips). -/
theorem c6_suggestions (sm kc : ℕ) (rs js : List String) :
    4 ≤ (generate_suggestions sm kc rs js).length ∧
    (generate_suggestions sm kc rs js).length ≤ 6 ∧
    ((genConds sm kc rs js).length ≤ 2 →
      ∀ t ∈ staticTips, t ∈ generate_suggestions sm kc rs js) := by
  have hc := genConds_length_le sm kc rs js
  have hlen : (generate_suggestions sm kc rs js).length
      = min 6 ((genConds sm kc rs js).length + 4) := by
    unfold generate_suggestions
    rw [List.length_take, List.length_append, staticTips_length]
  refine ⟨by omega, by omega, ?_⟩
  intro h2 t ht
  have hall : (genConds sm kc rs js ++ staticTips).length ≤ 6 := by
    rw [List.length_append, staticTips_length]
    omega
  unfold generate_suggestions
  rw [List.take_of_length_le hall]
  exact List.mem_append_right _ ht

theorem c6_suggestions_witness :
    (genConds 100 100 [] []).length ≤ 2 ∧
    "Add a skills section with relevant technical skills" ∈ staticTips ∧
    "Add a skills section with relevant technical skills"
      ∈ generate_suggestions 100 100 [] [] :=
  ⟨by decide, by decide,
   (c6_suggestions 100 100 [] []).2.2 (by decide) _ (by decide)⟩

/-! ## Claim C7 -/

/-- **C7.**  Text-extraction dispatch is by lowercase file extension:
resumes accept only `.pdf` and `.docx`, and any other extension
(including `.txt`) yields the sentinel; job descriptions also accept
`.txt`. -/
theorem c7_dispatch :
    (∀ path pdfText docxText : String,
      (pyEndsWith (pyLower path) ".pdf" = true →
        parse_resume_text path pdfText docxText = pdfText) ∧
      (pyEndsWith (pyLower path) ".pdf" = false →
        pyEndsWith (pyLower path) ".docx" = true →
        parse_resume_text path pdfText docxText = docxText) ∧
      (pyEndsWith (pyLower path) ".pdf" = false →
        pyEndsWith (pyLower path) ".docx" = false →
        parse_resume_text path pdfText docxText = "Unsupported file format")) ∧
    (∀ path pdfText docxText txtText : String,
      (pyEndsWith (pyLower path) ".pdf" = true →
        parse_jd_text path pdfText docxText txtText = pdfText) ∧
      (pyEndsWith (pyLower path) ".pdf" = false →
        pyEndsWith (pyLower path) ".docx" = true →
        parse_jd_text path pdfText docxText txtText = docxText) ∧
      (pyEndsWith (pyLower path) ".pdf" = false →
        pyEndsWith (pyLower path) ".docx" = false →
        pyEndsWith (pyLower path) ".txt" = true →
        parse_jd_text path pdfText docxText txtText = txtText) ∧
      (pyEndsWith (pyLower path) ".pdf" = false →
        pyEndsWith (pyLower path) ".docx" = false →
        pyEndsWith (pyLower path) ".txt" = false →
        parse_jd_text path pdfText docxText txtText = "Unsupported file format")) ∧
    (∀ pdfText docxText : String,
      parse_resume_text "resume.txt" pdfText docxText = "Unsupported file format") := by
  refine ⟨fun path p d => ⟨?_, ?_, ?_⟩, fun path p d t => ⟨?_, ?_, ?_, ?_⟩, fun p d => ?_⟩
  · intro h1
    simp [parse_resume_text, h1]
  · intro h1 h2
    simp [parse_resume_text, h1, h2]
  · intro h1 h2
    simp [parse_resume_text, h1, h2]
  · intro h1
    simp [parse_jd_text, h1]
  · intro h1 h2
    simp [parse_jd_text, h1, h2]
  · intro h1 h2 h3
    simp [parse_jd_text, h1, h2, h3]
  · intro h1 h2 h3
    simp [parse_jd_text, h1, h2, h3]
  · have h1 : pyEndsWith (pyLower "resume.txt") ".pdf" = false := by decide
    have h2 : pyEndsWith (pyLower "resume.txt") ".docx" = false := by decide
    simp [parse_resume_text, h1, h2]

theorem c7_dispatch_witness :
    pyEndsWith (pyLower "CV.PDF") ".pdf" = true ∧
    parse_resume_text "CV.PDF" "P" "D" = "P" ∧
    pyEndsWith (pyLower "jd.docx") ".pdf" = false ∧
    pyEndsWith (pyLower "jd.docx") ".docx" = true ∧
    parse_jd_text "jd.docx" "P" "D" "T" = "D" :=
  ⟨by decide, (c7_dispatch.1 "CV.PDF" "P" "D").1 (by decide), by decide, by decide,
   (c7_dispatch.2.1 "jd.docx" "P" "D" "T").2.1 (by decide) (by decide)⟩

/-! ## Claim C8 -/

/-- **C8.**  `extract_name` returns the stripped form of the first of
the first five lines that is non-empty, has at most four
whitespace-separated tokens, contains no digit and no `@`; the sentinel
otherwise.  On `"Jane Doe\nSoftware Engineer\njane@x.com"` it returns
`"Jane Doe"`. -/
theorem c8_extract_name :
    (∀ text : String, extract_name text
      = ((((pyLines text).take 5).find? (fun line =>
          (pyStrip line).data.length > 0
            && (pySplitWs (pyStrip line)).length ≤ 4
            && !((pyStrip line).data.any Char.isDigit)
            && !((pyStrip line).data.contains '@'))).map pyStrip).getD
          "Name not found") ∧
    extract_name "Jane Doe\nSoftware Engineer\njane@x.com" = "Jane Doe" := by
  constructor
  · intro text
    exact findName_eq _
  · decide

/-! ## Claim C9 -/

/-- **C9.**  For a fixed job description with a non-empty required-skill
set, `skill_match` is monotone in the resume's skill list: enlarging the
skill list cannot lower the score. -/
theorem c9_skill_match_monotone (text1 text2 : String) (skills1 skills2 : List String)
    (jd : JdData) (hsub : skills1 ⊆ skills2) (hne : jd.required_skills ≠ []) :
    (compare_resume_jd ⟨text1, skills1⟩ jd).skill_match
      ≤ (compare_resume_jd ⟨text2, skills2⟩ jd).skill_match := by
  have hcond : ¬ ((jd.required_skills.map pyLower).dedup.isEmpty = true) := by
    simp only [List.isEmpty_iff, List.dedup_eq_nil, List.map_eq_nil]
    exact hne
  have hlen : (jd.required_skills.map pyLower).dedup.length ≠ 0 := by
    intro h0
    have h1 : (jd.required_skills.map pyLower).dedup = [] := List.length_eq_zero.mp h0
    rw [List.dedup_eq_nil, List.map_eq_nil] at h1
    exact hne h1
  show (if (jd.required_skills.map pyLower).dedup.isEmpty then 100
    else percentOf ((skills1.map pyLower).dedup.filter
        (fun s => ((jd.required_skills.map pyLower).dedup).contains s)).length
      (jd.required_skills.map pyLower).dedup.length)
    ≤ (if (jd.required_skills.map pyLower).dedup.isEmpty then 100
    else percentOf ((skills2.map pyLower).dedup.filter
        (fun s => ((jd.required_skills.map pyLower).dedup).contains s)).length
      (jd.required_skills.map pyLower).dedup.length)
  rw [if_neg hcond, if_neg hcond]
  exact percentOf_mono _ _ _ (matching_count_mono skills1 skills2 _ hsub) hlen

theorem c9_skill_match_monotone_witness :
    (["python"] : List String) ⊆ ["python", "docker"] ∧
    (JdData.mk "" ["python", "docker", "kubernetes"] []).required_skills ≠ [] ∧
    (compare_resume_jd ⟨"", ["python"]⟩
        ⟨"", ["python", "docker", "kubernetes"], []⟩).skill_match
      ≤ (compare_resume_jd ⟨"", ["python", "docker"]⟩
        ⟨"", ["python", "docker", "kubernetes"], []⟩).skill_match :=
  ⟨by decide, by decide,
   c9_skill_match_monotone "" "" ["python"] ["python", "docker"]
     ⟨"", ["python", "docker", "kubernetes"], []⟩ (by decide) (by decide)⟩

/-! ## Claim C10 -/

/-- **C10.**  Every element of `extract_skills` (resp.
`extract_keywords`) is the title-cased form of a vocabulary entry whose
lowercase form occurs as a substring of the lowercased text, and the
returned lists contain no duplicates. -/
theorem c10_extract_invariants (text : String) :
    ((extract_skills text).Nodup ∧ (extract_keywords text).Nodup) ∧
    (∀ x, x ∈ extract_skills text →
      ∃ sk, sk ∈ skill_keywords ∧ x = pyTitle sk ∧ pyIn sk (pyLower text) = true) ∧
    (∀ x, x ∈ extract_keywords text →
      ∃ kw, kw ∈ keyword_vocab ∧ x = pyTitle kw ∧ pyIn kw (pyLower text) = true) := by
  refine ⟨⟨?_, ?_⟩, ?_, ?_⟩
  · have hv : (skill_keywords.map pyTitle).Nodup := by decide
    exact List.Nodup.sublist (List.Sublist.map pyTitle (List.filter_sublist _)) hv
  · have hv : (keyword_vocab.map pyTitle).Nodup := by decide
    exact List.Nodup.sublist (List.Sublist.map pyTitle (List.filter_sublist _)) hv
  · intro x hx
    simp only [extract_skills, List.mem_map, List.mem_filter] at hx
    obtain ⟨sk, ⟨hmem, hcond⟩, heq⟩ := hx
    exact ⟨sk, hmem, heq.symm, hcond⟩
  · intro x hx
    simp only [extract_keywords, List.mem_map, List.mem_filter] at hx
    obtain ⟨kw, ⟨hmem, hcond⟩, heq⟩ := hx
    exact ⟨kw, hmem, heq.symm, hcond⟩

theorem c10_extract_invariants_witness :
    "Python" ∈ extract_skills "Built APIs using Python and React with Docker" ∧
    (∃ sk, sk ∈ skill_keywords ∧ "Python" = pyTitle sk
      ∧ pyIn sk (pyLower "Built APIs using Python and React with Docker") = true) :=
  ⟨by decide,
   (c10_extract_invariants "Built APIs using Python and React with Docker").2.1
     "Python" (by decide)⟩


end ATS
